import Mathlib

/-!
Verification of the Sudoku solver core of this repository
(`Projects/sudoku-master/sdk_solver.py` and `Projects/sudoku-master/sdk_group.py`).

Values are modelled as natural numbers: `0` stands for the UNKNOWN
placeholder and `1`..`9` are the digits.  Python sets of candidate digits
are modelled as duplicate-free lists of naturals; only membership, size
and iteration order matter, and for candidate sets the iteration order is
taken to be ascending digit order (the "natural enumeration order" of the
spec).  Mutation of tiles in place is modelled by explicit state passing
on a board value.
-/

/-- Modelled from the spec: `sdk_tile.py` is not under `src/`.  A tile holds a
value (`0` = UNKNOWN) and the set of remaining candidate digits (§3 of the
spec). -/
structure Tile where
  value : Nat
  candidates : List Nat
deriving DecidableEq, Repr

/-- Modelled from the spec: the UNKNOWN placeholder value of `sdk_tile.py`. -/
def UNKNOWN : Nat := 0

/-- Modelled from the spec: the `CHOICES` constant of `sdk_tile.py`, the nine
digits a tile may hold. -/
def CHOICES : List Nat := [1, 2, 3, 4, 5, 6, 7, 8, 9]

/-- Modelled from the spec: `Tile.set_value(v)` assigns `value = v` and
collapses `candidates` to `{v}` (§4.1). -/
def set_value (v : Nat) : Tile :=
  { value := v, candidates := [v] }

/-- Modelled from the spec: `Tile.eliminate(used)` removes every member of
`used` from `candidates` when the tile is UNKNOWN and reports whether the
set actually shrank; it is a no-op on assigned tiles (§4.1). -/
def eliminate (used : List Nat) (t : Tile) : Tile × Bool :=
  if t.value ≠ UNKNOWN then (t, false)
  else
    let c' := t.candidates.filter (fun d => !(used.contains d))
    (⟨t.value, c'⟩, decide (c'.length < t.candidates.length))

/-- Modelled from the spec: `Tile.could_be(v)` is the membership test of `v`
against the tile's candidate set (§4.1). -/
def could_be (t : Tile) (v : Nat) : Bool :=
  t.candidates.contains v

/-- Modelled from the spec: `sdk_board.py` is not under `src/`.  The board owns
81 tiles in a row-major 9×9 grid (§3); `board.tiles` is the list of rows. -/
def Board : Type := List (List Tile)

instance : DecidableEq Board := by
  unfold Board
  infer_instance

/-- Read the tile at row `r`, column `c` (a default tile out of range). -/
def getTile (b : Board) (r c : Nat) : Tile :=
  ((b : List (List Tile)).getD r []).getD c ⟨0, []⟩

/-- Write the tile at row `r`, column `c` (no-op out of range), the
state-passing rendering of in-place tile mutation. -/
def setTile (b : Board) (r c : Nat) (t : Tile) : Board :=
  (b : List (List Tile)).set r (((b : List (List Tile)).getD r []).set c t)

/-- The coordinates of row group `r`, in scan order. -/
def rowCoords (r : Nat) : List (Nat × Nat) :=
  (List.range 9).map (fun c => (r, c))

/-- The coordinates of column group `c`, in scan order. -/
def colCoords (c : Nat) : List (Nat × Nat) :=
  (List.range 9).map (fun r => (r, c))

/-- The coordinates of block group `i` (row-major within the block). -/
def blockCoords (i : Nat) : List (Nat × Nat) :=
  (List.range 3).flatMap (fun dr => (List.range 3).map (fun dc => (i / 3 * 3 + dr, i % 3 * 3 + dc)))

/-- Modelled from the spec: the 27 groups the board wires at construction
(9 rows, 9 columns, 9 blocks, §2/§3); per the spec's design note each group
is a fixed list of coordinates into the board's tile storage. -/
def allGroups : List (List (Nat × Nat)) :=
  (List.range 9).map rowCoords ++ (List.range 9).map colCoords ++ (List.range 9).map blockCoords

/-- Extract the member tiles of a group from the board, in group order. -/
def groupTiles (b : Board) (g : List (Nat × Nat)) : List Tile :=
  g.map (fun p => getTile b p.1 p.2)

/-- Membership check with equal-membership semantics of Python set equality. -/
def seteq (l1 l2 : List Nat) : Bool :=
  l1.all (fun x => l2.contains x) && l2.all (fun x => l1.contains x)

/-- The loop of `Group.is_consistent` (sdk_group.py lines 60-81): walk the
tiles carrying the set `used` of assigned values seen so far and the union
`cp` of candidate sets; fail on an empty candidate set or a repeated
assigned value, and finally require the union to equal `CHOICES`. -/
def consLoop : List Tile → List Nat → List Nat → Bool
  | [], _, cp => seteq cp CHOICES
  | t :: ts, used, cp =>
    if t.candidates.length = 0 then false
    else if used.contains t.value then false
    else consLoop ts (if t.value ≠ UNKNOWN then t.value :: used else used) (cp ++ t.candidates)

/-- `Group.is_consistent` (sdk_group.py lines 60-81) on the group's tiles. -/
def is_consistent_group (ts : List Tile) : Bool :=
  consLoop ts [] []

/-- `Group.is_complete` (sdk_group.py lines 51-58): no member tile is UNKNOWN. -/
def is_complete_group (ts : List Tile) : Bool :=
  ts.all (fun t => t.value != UNKNOWN)

/-- The loop of `Group.duplicates` (sdk_group.py lines 83-93).  A report is
modelled by the duplicated value (the Python code formats a diagnostic
string from it).  Exactly as in the source, `used` is threaded through the
loop but never extended. -/
def dupAux : List Tile → List Nat → List Nat → List Nat
  | [], _, reports => reports
  | t :: ts, used, reports =>
    if t.value = UNKNOWN then dupAux ts used reports
    else if used.contains t.value then dupAux ts used (reports ++ [t.value])
    else dupAux ts used reports

/-- `Group.duplicates` (sdk_group.py lines 83-93) on the group's tiles. -/
def duplicates (ts : List Tile) : List Nat :=
  dupAux ts [] []

/-- Modelled from the spec: `Board.is_solved()` is true iff every one of the
27 groups `is_complete()` (§4.3). -/
def is_solved (b : Board) : Bool :=
  allGroups.all (fun g => is_complete_group (groupTiles b g))

/-- Modelled from the spec: `Board.is_consistent()` is true iff every group
`is_consistent()` (§4.3). -/
def is_consistent (b : Board) : Bool :=
  allGroups.all (fun g => is_consistent_group (groupTiles b g))

/-- Modelled from the spec: `Board.as_list()` is the row-major snapshot of all
81 tile values, UNKNOWN rendered as its placeholder (§4.3). -/
def as_list (b : Board) : List Nat :=
  (List.range 9).flatMap (fun r => (List.range 9).map (fun c => (getTile b r c).value))

/-- A tile as rebuilt from a restored value: an assigned value keeps only
itself as candidate, an UNKNOWN tile gets the full candidate set again. -/
def restoredTile (v : Nat) : Tile :=
  if v = UNKNOWN then ⟨UNKNOWN, CHOICES⟩ else ⟨v, [v]⟩

/-- Modelled from the spec: `Board.set_tiles(snapshot)` restores all 81 tile
values row-major from the snapshot, recomputing each candidate set
consistently with the restored value (§4.3, §9 open question 1). -/
def set_tiles (_b : Board) (snap : List Nat) : Board :=
  (List.range 9).map (fun r => (List.range 9).map (fun c => restoredTile (snap.getD (r * 9 + c) 0)))

/-- Build a board from a 9×9 grid of values, as the excluded construction
collaborator does (§6): UNKNOWN cells start with the full candidate set. -/
def boardOfVals (vals : List (List Nat)) : Board :=
  (List.range 9).map (fun r => (List.range 9).map (fun c => restoredTile ((vals.getD r []).getD c 0)))

/-- The loop of `Group.naked_single_constrain` (sdk_group.py lines 98-118):
eliminate the already-assigned values from every UNKNOWN member tile,
accumulating whether anything changed. -/
def nakedGroupAux (remaining : List Nat) : List (Nat × Nat) → Board → Bool → Board × Bool
  | [], b, ch => (b, ch)
  | p :: ps, b, ch =>
    let t := getTile b p.1 p.2
    if t.value = UNKNOWN then
      let e := eliminate remaining t
      nakedGroupAux remaining ps (setTile b p.1 p.2 e.1) (e.2 || ch)
    else nakedGroupAux remaining ps b ch

/-- The assigned values of a group, as collected by
`Group.naked_single_constrain` before eliminating. -/
def assignedVals (b : Board) (g : List (Nat × Nat)) : List Nat :=
  (g.map (fun p => (getTile b p.1 p.2).value)).filter (fun v => v != UNKNOWN)

/-- `Group.naked_single_constrain` (sdk_group.py lines 98-118) on one group. -/
def nakedGroup (b : Board) (g : List (Nat × Nat)) : Board × Bool :=
  nakedGroupAux (assignedVals b g) g b false

/-- The leftover digits of `Group.hidden_single_constrain` (sdk_group.py
lines 132-135): the digits 1-9 not assigned anywhere in the group. -/
def hiddenLeftovers (b : Board) (g : List (Nat × Nat)) : List Nat :=
  CHOICES.filter (fun d => g.all (fun p => (getTile b p.1 p.2).value != d))

/-- The per-digit loop of `Group.hidden_single_constrain` (sdk_group.py
lines 137-145): for each leftover digit whose bucket of possible tiles is a
singleton, assign the digit there via `set_value`. -/
def hiddenAux (g : List (Nat × Nat)) : List Nat → Board → Bool → Board × Bool
  | [], b, ch => (b, ch)
  | d :: ds, b, ch =>
    match g.filter (fun p => could_be (getTile b p.1 p.2) d) with
    | [p] => hiddenAux g ds (setTile b p.1 p.2 (set_value d)) true
    | _ => hiddenAux g ds b ch

/-- `Group.hidden_single_constrain` (sdk_group.py lines 120-148) on one group. -/
def hiddenGroup (b : Board) (g : List (Nat × Nat)) : Board × Bool :=
  hiddenAux g (hiddenLeftovers b g) b false

/-- The shared shape of `naked_single` and `hidden_single` of sdk_solver.py:
apply a group tactic to every group, or-ing the changed flags. -/
def tacticFold (f : Board → List (Nat × Nat) → Board × Bool) :
    List (List (Nat × Nat)) → Board → Bool → Board × Bool
  | [], b, ch => (b, ch)
  | g :: gs, b, ch =>
    let r := f b g
    tacticFold f gs r.1 (r.2 || ch)

/-- `naked_single` (sdk_solver.py lines 18-26). -/
def naked_single (b : Board) : Board × Bool :=
  tacticFold nakedGroup allGroups b false

/-- `hidden_single` (sdk_solver.py lines 29-37). -/
def hidden_single (b : Board) : Board × Bool :=
  tacticFold hiddenGroup allGroups b false

/-- One iteration of the `propagate` loop body (sdk_solver.py lines 47-54):
run `naked_single`, stop if solved or inconsistent, run `hidden_single`,
stop if solved or inconsistent; otherwise report whether another iteration
is due (`changed`). -/
def propagateStep (b : Board) : Board × Bool :=
  let r1 := naked_single b
  if is_solved r1.1 || !(is_consistent r1.1) then (r1.1, false)
  else
    let r2 := hidden_single r1.1
    if is_solved r2.1 || !(is_consistent r2.1) then (r2.1, false)
    else (r2.1, r1.2 || r2.2)

/-- The loop of `propagate` (sdk_solver.py lines 40-55), indexed by fuel.
Fuel only bounds the number of loop iterations; the fuel-stability theorem
below shows that a computable fuel reaches the loop's own exit on every
well-formed board, so the fuel is not a semantic change. -/
def propagateF : Nat → Board → Board
  | 0, b => b
  | n + 1, b =>
    let s := propagateStep b
    if s.2 then propagateF n s.1 else s.1

/-- The size measure driving termination of `propagate`: total remaining
candidate count plus the number of UNKNOWN tiles. -/
def muTile (t : Tile) : Nat :=
  t.candidates.length + (if t.value = UNKNOWN then 1 else 0)

/-- The board-level measure: the sum of `muTile` over the 81 cells. -/
def mu (b : Board) : Nat :=
  ∑ r ∈ Finset.range 9, ∑ c ∈ Finset.range 9, muTile (getTile b r c)

/-- `propagate` (sdk_solver.py lines 40-55): run the loop with enough fuel to
reach its exit. -/
def propagate (b : Board) : Board :=
  propagateF (mu b + 1) b

/-- All 81 board coordinates in row-major scan order, as iterated by the
tile-selection loop of `solve` (sdk_solver.py lines 75-79). -/
def rowMajor : List (Nat × Nat) :=
  (List.range 9).flatMap (fun r => (List.range 9).map (fun c => (r, c)))

/-- The selection scan of `solve` (sdk_solver.py lines 71-79): track the
fewest candidate count seen (`mc`, starting at 10) and the last tile that
strictly lowered it. -/
def selectAux (b : Board) : List (Nat × Nat) → Nat → Option (Nat × Nat) → Nat × Option (Nat × Nat)
  | [], mc, best => (mc, best)
  | p :: ps, mc, best =>
    let t := getTile b p.1 p.2
    if t.value = UNKNOWN ∧ t.candidates.length < mc then
      selectAux b ps t.candidates.length (some p)
    else selectAux b ps mc best

/-- The tile `solve` picks for guessing: minimum remaining candidates, ties
broken by first position in row-major scan order. -/
def selectScan (b : Board) : Option (Nat × Nat) :=
  (selectAux b rowMajor 10 none).2

/-- The guess loop of `solve` (sdk_solver.py lines 81-87): try each candidate
of the chosen tile in order, recursing through `rec`; on failure restore the
board from the snapshot `save` before trying the next candidate. -/
def tryCands (rec : Board → Board × Bool) (p : Nat × Nat) (save : List Nat) :
    List Nat → Board → Board × Bool
  | [], b => (b, false)
  | c :: cs, b =>
    match rec (setTile b p.1 p.2 (set_value c)) with
    | (b2, true) => (b2, true)
    | (b2, false) => tryCands rec p save cs (set_tiles b2 save)

/-- `solve` (sdk_solver.py lines 58-88), indexed by recursion fuel; depth is
bounded by the number of UNKNOWN tiles (§5), so fuel 82 suffices for any
actual run.  When the selection scan finds no tile (impossible in the
guessing phase of a well-formed board, see claim C10) the model returns
false where Python would fault. -/
def solveF : Nat → Board → Board × Bool
  | 0, b => (b, false)
  | n + 1, b =>
    let bp := propagate b
    if is_solved bp then (bp, true)
    else if !(is_consistent bp) then (bp, false)
    else
      match selectScan bp with
      | none => (bp, false)
      | some p => tryCands (solveF n) p (as_list bp) (getTile bp p.1 p.2).candidates bp

/-- `solve` at the depth bound of §5. -/
def solve (b : Board) : Board × Bool :=
  solveF 82 b

/-- Well-formedness of a tile: duplicate-free candidates among the nine
digits, and the §3 invariant that an assigned tile's candidate set is
exactly its value. -/
def WFtile (t : Tile) : Prop :=
  t.candidates.Nodup ∧ (∀ d ∈ t.candidates, d ∈ CHOICES) ∧
    (t.value ≠ UNKNOWN → t.candidates = [t.value])

/-- Well-formedness of a board: a 9×9 grid of well-formed tiles. -/
def WF (b : Board) : Prop :=
  (b : List (List Tile)).length = 9 ∧
    (∀ r < 9, ((b : List (List Tile)).getD r []).length = 9) ∧
    ∀ r < 9, ∀ c < 9, WFtile (getTile b r c)

instance (t : Tile) : Decidable (WFtile t) := by
  unfold WFtile
  infer_instance

instance (b : Board) : Decidable (WF b) := by
  unfold WF
  infer_instance

/-! ### Basic list and board access lemmas -/

theorem getD_set_eq {α : Type} (l : List α) (i : Nat) (x d : α) (h : i < l.length) :
    (l.set i x).getD i d = x := by
  induction l generalizing i with
  | nil => simp at h
  | cons a l ih =>
    cases i with
    | zero => rfl
    | succ i => exact ih i (by simpa using h)

theorem getD_set_ne {α : Type} (l : List α) (i j : Nat) (x d : α) (h : i ≠ j) :
    (l.set i x).getD j d = l.getD j d := by
  induction l generalizing i j with
  | nil => simp [List.set]
  | cons a l ih =>
    cases i with
    | zero =>
      cases j with
      | zero => exact absurd rfl h
      | succ j => rfl
    | succ i =>
      cases j with
      | zero => rfl
      | succ j => exact ih i j (fun hij => h (by rw [hij]))

theorem getTile_setTile_eq (b : Board) (r c : Nat) (t : Tile)
    (hr : r < (b : List (List Tile)).length)
    (hc : c < ((b : List (List Tile)).getD r []).length) :
    getTile (setTile b r c t) r c = t := by
  unfold getTile setTile
  rw [getD_set_eq _ _ _ _ hr, getD_set_eq _ _ _ _ hc]

theorem getTile_setTile_ne (b : Board) (r c r' c' : Nat) (t : Tile)
    (h : ¬(r' = r ∧ c' = c)) :
    getTile (setTile b r c t) r' c' = getTile b r' c' := by
  unfold getTile setTile
  by_cases hr : r' = r
  · subst hr
    have hc : c' ≠ c := fun hcc => h ⟨rfl, hcc⟩
    by_cases hlen : r' < (b : List (List Tile)).length
    · rw [getD_set_eq _ _ _ _ hlen, getD_set_ne _ _ _ _ _ (fun hcc => hc hcc.symm)]
    · rw [List.set_eq_of_length_le (Nat.le_of_not_lt hlen)]
  · rw [getD_set_ne _ _ _ _ _ (fun hrr => hr hrr.symm)]

theorem length_setTile (b : Board) (r c : Nat) (t : Tile) :
    (setTile b r c t : List (List Tile)).length = (b : List (List Tile)).length := by
  unfold setTile
  exact List.length_set ..

theorem row_length_setTile (b : Board) (r c r' : Nat) (t : Tile) :
    ((setTile b r c t : List (List Tile)).getD r' []).length =
      ((b : List (List Tile)).getD r' []).length := by
  unfold setTile
  by_cases hr : r = r'
  · subst hr
    by_cases hlen : r < (b : List (List Tile)).length
    · rw [getD_set_eq _ _ _ _ hlen, List.length_set]
    · rw [List.set_eq_of_length_le (Nat.le_of_not_lt hlen)]
  · rw [getD_set_ne _ _ _ _ _ hr]

/-! ### The pointwise step relation and the measure -/

/-- Pointwise evolution of a board under the solver's tactics: candidate sets
only shrink, and assigned tiles are left untouched. -/
def PW (b b' : Board) : Prop :=
  ∀ r < 9, ∀ c < 9,
    (getTile b' r c).candidates ⊆ (getTile b r c).candidates ∧
      ((getTile b r c).value ≠ UNKNOWN → getTile b' r c = getTile b r c)

theorem PW_refl (b : Board) : PW b b :=
  fun _ _ _ _ => ⟨fun _ h => h, fun _ => rfl⟩

theorem PW_trans {a b c : Board} (h1 : PW a b) (h2 : PW b c) : PW a c := by
  intro r hr col hc
  obtain ⟨s1, v1⟩ := h1 r hr col hc
  obtain ⟨s2, v2⟩ := h2 r hr col hc
  refine ⟨fun d hd => s1 (s2 hd), fun hv => ?_⟩
  rw [v2, v1 hv]
  rw [v1 hv]
  exact hv

/-- One ≤-step of the tactics: well-formedness is kept, the measure does not
grow, and tiles evolve pointwise. -/
def GStep (b b' : Board) : Prop :=
  WF b' ∧ mu b' ≤ mu b ∧ PW b b'

theorem GStep_refl {b : Board} (h : WF b) : GStep b b :=
  ⟨h, Nat.le_refl _, PW_refl b⟩

theorem GStep_trans {a b c : Board} (h1 : GStep a b) (h2 : GStep b c) : GStep a c :=
  ⟨h2.1, Nat.le_trans h2.2.1 h1.2.1, PW_trans h1.2.2 h2.2.2⟩

theorem mu_le_of_pointwise {b b' : Board}
    (h : ∀ r < 9, ∀ c < 9, muTile (getTile b' r c) ≤ muTile (getTile b r c)) :
    mu b' ≤ mu b := by
  unfold mu
  refine Finset.sum_le_sum (fun r hr => Finset.sum_le_sum (fun c hc => ?_))
  exact h r (Finset.mem_range.mp hr) c (Finset.mem_range.mp hc)

theorem mu_lt_of_pointwise {b b' : Board} {r0 c0 : Nat} (hr0 : r0 < 9) (hc0 : c0 < 9)
    (h : ∀ r < 9, ∀ c < 9, muTile (getTile b' r c) ≤ muTile (getTile b r c))
    (hlt : muTile (getTile b' r0 c0) < muTile (getTile b r0 c0)) :
    mu b' < mu b := by
  unfold mu
  refine Finset.sum_lt_sum (fun r hr => Finset.sum_le_sum (fun c hc => ?_)) ⟨r0, Finset.mem_range.mpr hr0, ?_⟩
  · exact h r (Finset.mem_range.mp hr) c (Finset.mem_range.mp hc)
  · refine Finset.sum_lt_sum (fun c hc => ?_) ⟨c0, Finset.mem_range.mpr hc0, hlt⟩
    exact h r0 hr0 c (Finset.mem_range.mp hc)

/-- The single-write bundle: writing a pointwise-smaller well-formed tile is a
`GStep`, strictly decreasing the measure when the tile strictly shrinks. -/
theorem setTile_good {b : Board} {r c : Nat} {t' : Tile}
    (hb : WF b) (hr : r < 9) (hc : c < 9)
    (hsub : t'.candidates ⊆ (getTile b r c).candidates)
    (hval : (getTile b r c).value ≠ UNKNOWN → t' = getTile b r c)
    (hwf : WFtile t')
    (hmu : muTile t' ≤ muTile (getTile b r c)) :
    GStep b (setTile b r c t') ∧
      (muTile t' < muTile (getTile b r c) → mu (setTile b r c t') < mu b) := by
  have hrb : r < (b : List (List Tile)).length := by rw [hb.1]; exact hr
  have hcb : c < ((b : List (List Tile)).getD r []).length := by rw [hb.2.1 r hr]; exact hc
  have hget : ∀ r' < 9, ∀ c' < 9, getTile (setTile b r c t') r' c' =
      if r' = r ∧ c' = c then t' else getTile b r' c' := by
    intro r' _ c' _
    by_cases h : r' = r ∧ c' = c
    · rw [if_pos h, h.1, h.2]
      exact getTile_setTile_eq b r c t' hrb hcb
    · rw [if_neg h]
      exact getTile_setTile_ne b r c r' c' t' h
  have hpoint : ∀ r' < 9, ∀ c' < 9,
      muTile (getTile (setTile b r c t') r' c') ≤ muTile (getTile b r' c') := by
    intro r' hr' c' hc'
    rw [hget r' hr' c' hc']
    by_cases h : r' = r ∧ c' = c
    · obtain ⟨h1, h2⟩ := h
      subst h1; subst h2
      simpa using hmu
    · simp [h]
  refine ⟨⟨⟨?_, ?_, ?_⟩, mu_le_of_pointwise hpoint, ?_⟩, ?_⟩
  · rw [length_setTile]; exact hb.1
  · intro r' hr'
    rw [row_length_setTile]
    exact hb.2.1 r' hr'
  · intro r' hr' c' hc'
    rw [hget r' hr' c' hc']
    by_cases h : r' = r ∧ c' = c
    · simpa [h] using hwf
    · simpa [h] using hb.2.2 r' hr' c' hc'
  · intro r' hr' c' hc'
    rw [hget r' hr' c' hc']
    by_cases h : r' = r ∧ c' = c
    · obtain ⟨h1, h2⟩ := h
      subst h1; subst h2
      simpa using ⟨hsub, hval⟩
    · simp [h, List.Subset.refl]
  · intro hlt
    refine mu_lt_of_pointwise hr hc hpoint ?_
    rw [hget r hr c hc]
    simpa using hlt

/-! ### Tile-level facts about the two mutating operations -/

theorem eliminate_facts (used : List Nat) (t : Tile) (h0 : t.value = UNKNOWN) :
    (eliminate used t).1.value = t.value ∧
      (eliminate used t).1.candidates ⊆ t.candidates ∧
      (WFtile t → WFtile (eliminate used t).1) ∧
      muTile (eliminate used t).1 ≤ muTile t ∧
      ((eliminate used t).2 = true → muTile (eliminate used t).1 < muTile t) := by
  have he : eliminate used t =
      (⟨t.value, t.candidates.filter (fun d => !(used.contains d))⟩,
        decide ((t.candidates.filter (fun d => !(used.contains d))).length <
          t.candidates.length)) := by
    simp [eliminate, h0]
  rw [he]
  refine ⟨rfl, List.filter_subset' _, ?_, ?_, ?_⟩
  · intro hwf
    refine ⟨hwf.1.filter _, fun d hd => hwf.2.1 d (List.filter_subset' _ hd), fun hv => ?_⟩
    exact absurd h0 hv
  · simp only [muTile]
    exact Nat.add_le_add_right (List.length_filter_le _ _) _
  · intro hch
    simp only [decide_eq_true_eq] at hch
    simp only [muTile]
    exact Nat.add_lt_add_right hch _

theorem set_value_facts (d : Nat) (t : Tile) (hd : d ∈ t.candidates)
    (hdc : d ∈ CHOICES) (hwf : WFtile t) :
    (set_value d).candidates ⊆ t.candidates ∧
      (t.value ≠ UNKNOWN → set_value d = t) ∧
      WFtile (set_value d) ∧
      muTile (set_value d) ≤ muTile t ∧
      (t.value = UNKNOWN → muTile (set_value d) < muTile t) := by
  have hlen : 1 ≤ t.candidates.length := by
    cases hc : t.candidates with
    | nil => rw [hc] at hd; simp at hd
    | cons a l => simp
  have hdz : ¬(d = UNKNOWN) := by
    intro h
    rw [h] at hdc
    simp [CHOICES, UNKNOWN] at hdc
  have hmu1 : muTile (set_value d) = 1 := by
    simp [muTile, set_value, hdz]
  refine ⟨?_, ?_, ?_, ?_, ?_⟩
  · intro x hx
    simp only [set_value, List.mem_singleton] at hx
    rw [hx]; exact hd
  · intro hv
    have hc := hwf.2.2 hv
    rw [hc] at hd
    simp only [List.mem_singleton] at hd
    cases t with
    | mk v c =>
      simp only at hc hd
      simp only [set_value, hd, hc]
  · exact ⟨List.nodup_singleton d, by simpa [set_value] using hdc, fun _ => rfl⟩
  · rw [hmu1]
    simp only [muTile]
    exact Nat.le_add_right_of_le hlen
  · intro hv
    rw [hmu1]
    simp only [muTile, hv, if_pos rfl]
    exact Nat.lt_succ_of_le hlen

/-! ### Progress and preservation for the group tactics -/

theorem allGroups_bounds : ∀ g ∈ allGroups, ∀ p ∈ g, p.1 < 9 ∧ p.2 < 9 := by
  decide

theorem nakedGroupAux_good (rem : List Nat) :
    ∀ (ps : List (Nat × Nat)) (b : Board) (ch : Bool), WF b →
      (∀ p ∈ ps, p.1 < 9 ∧ p.2 < 9) →
      GStep b (nakedGroupAux rem ps b ch).1 ∧
        ((nakedGroupAux rem ps b ch).2 = true → ch = true ∨
          mu (nakedGroupAux rem ps b ch).1 < mu b) := by
  intro ps
  induction ps with
  | nil =>
    intro b ch hb _
    exact ⟨GStep_refl hb, fun h => Or.inl h⟩
  | cons p ps ih =>
    intro b ch hb hps
    obtain ⟨hp1, hp2⟩ := hps p (List.mem_cons_self p ps)
    have hps' : ∀ q ∈ ps, q.1 < 9 ∧ q.2 < 9 := fun q hq => hps q (List.mem_cons_of_mem p hq)
    by_cases hv : (getTile b p.1 p.2).value = UNKNOWN
    · have hef := eliminate_facts rem (getTile b p.1 p.2) hv
      have hst := setTile_good hb hp1 hp2
        hef.2.1 (fun hne => absurd hv hne) (hef.2.2.1 (hb.2.2 p.1 hp1 p.2 hp2)) hef.2.2.2.1
      have hrec := ih (setTile b p.1 p.2 (eliminate rem (getTile b p.1 p.2)).1)
        ((eliminate rem (getTile b p.1 p.2)).2 || ch) hst.1.1 hps'
      have hunf : nakedGroupAux rem (p :: ps) b ch =
          nakedGroupAux rem ps (setTile b p.1 p.2 (eliminate rem (getTile b p.1 p.2)).1)
            ((eliminate rem (getTile b p.1 p.2)).2 || ch) := by
        simp [nakedGroupAux, hv]
      rw [hunf]
      refine ⟨GStep_trans hst.1 hrec.1, fun hch => ?_⟩
      rcases hrec.2 hch with hor | hlt
      · rcases Bool.or_eq_true_iff.mp hor with he | hc
        · right
          have := hst.2 (hef.2.2.2.2 he)
          exact Nat.lt_of_le_of_lt hrec.1.2.1 this
        · exact Or.inl hc
      · right
        exact Nat.lt_of_lt_of_le hlt hst.1.2.1
    · have hunf : nakedGroupAux rem (p :: ps) b ch = nakedGroupAux rem ps b ch := by
        simp [nakedGroupAux, hv]
      rw [hunf]
      exact ih b ch hb hps'

theorem nakedGroup_good (b : Board) (g : List (Nat × Nat)) (hb : WF b)
    (hg : ∀ p ∈ g, p.1 < 9 ∧ p.2 < 9) :
    GStep b (nakedGroup b g).1 ∧
      ((nakedGroup b g).2 = true → mu (nakedGroup b g).1 < mu b) := by
  have h := nakedGroupAux_good (assignedVals b g) g b false hb hg
  refine ⟨h.1, fun hch => ?_⟩
  rcases h.2 hch with hfalse | hlt
  · exact absurd hfalse (by simp)
  · exact hlt

theorem hiddenAux_good (g : List (Nat × Nat)) (hg : ∀ p ∈ g, p.1 < 9 ∧ p.2 < 9) :
    ∀ (ds : List Nat) (b : Board) (ch : Bool), WF b →
      (∀ d ∈ ds, d ∈ CHOICES) → ds.Nodup →
      (∀ d ∈ ds, ∀ p ∈ g, (getTile b p.1 p.2).value ≠ d) →
      GStep b (hiddenAux g ds b ch).1 ∧
        ((hiddenAux g ds b ch).2 = true → ch = true ∨ mu (hiddenAux g ds b ch).1 < mu b) := by
  intro ds
  induction ds with
  | nil =>
    intro b ch hb _ _ _
    exact ⟨GStep_refl hb, fun h => Or.inl h⟩
  | cons d ds ih =>
    intro b ch hb hdc hnd hne
    cases hfil : g.filter (fun p => could_be (getTile b p.1 p.2) d) with
    | nil =>
      have hunf : hiddenAux g (d :: ds) b ch = hiddenAux g ds b ch := by
        simp only [hiddenAux, hfil]
      rw [hunf]
      exact ih b ch hb (fun x hx => hdc x (List.mem_cons_of_mem d hx)) hnd.of_cons
        (fun x hx => hne x (List.mem_cons_of_mem d hx))
    | cons p tl =>
      cases tl with
      | cons q tl2 =>
        have hunf : hiddenAux g (d :: ds) b ch = hiddenAux g ds b ch := by
          simp only [hiddenAux, hfil]
        rw [hunf]
        exact ih b ch hb (fun x hx => hdc x (List.mem_cons_of_mem d hx)) hnd.of_cons
          (fun x hx => hne x (List.mem_cons_of_mem d hx))
      | nil =>
        have hpmem : p ∈ g.filter (fun q => could_be (getTile b q.1 q.2) d) := by
          rw [hfil]; exact List.mem_singleton_self p
        have hpg : p ∈ g := List.mem_of_mem_filter hpmem
        have hpcb : d ∈ (getTile b p.1 p.2).candidates := by
          have := List.of_mem_filter hpmem
          simpa [could_be] using this
        obtain ⟨hp1, hp2⟩ := hg p hpg
        have hwt := hb.2.2 p.1 hp1 p.2 hp2
        have hvz : (getTile b p.1 p.2).value = UNKNOWN := by
          by_contra hnz
          have hc := hwt.2.2 hnz
          rw [hc] at hpcb
          simp only [List.mem_singleton] at hpcb
          exact hne d (List.mem_cons_self d ds) p hpg hpcb.symm
        have hsv := set_value_facts d (getTile b p.1 p.2) hpcb
          (hdc d (List.mem_cons_self d ds)) hwt
        have hst := setTile_good hb hp1 hp2
          hsv.1 hsv.2.1 hsv.2.2.1 hsv.2.2.2.1
        have hb' := hst.1.1
        have hne' : ∀ x ∈ ds, ∀ q ∈ g,
            (getTile (setTile b p.1 p.2 (set_value d)) q.1 q.2).value ≠ x := by
          intro x hx q hqg
          by_cases hqp : q.1 = p.1 ∧ q.2 = p.2
          · obtain ⟨h1, h2⟩ := hqp
            rw [h1, h2, getTile_setTile_eq b p.1 p.2 (set_value d)
              (by rw [hb.1]; exact hp1) (by rw [hb.2.1 p.1 hp1]; exact hp2)]
            simp only [set_value]
            intro hdx
            rw [hdx] at hnd
            exact (List.nodup_cons.mp hnd).1 hx
          · rw [getTile_setTile_ne b p.1 p.2 q.1 q.2 (set_value d) hqp]
            exact hne x (List.mem_cons_of_mem d hx) q hqg
        have hrec := ih (setTile b p.1 p.2 (set_value d)) true hb'
          (fun x hx => hdc x (List.mem_cons_of_mem d hx)) hnd.of_cons hne'
        have hunf : hiddenAux g (d :: ds) b ch =
            hiddenAux g ds (setTile b p.1 p.2 (set_value d)) true := by
          simp only [hiddenAux, hfil]
        rw [hunf]
        have hstrict : mu (setTile b p.1 p.2 (set_value d)) < mu b :=
          hst.2 (hsv.2.2.2.2 hvz)
        refine ⟨GStep_trans hst.1 hrec.1, fun _ => Or.inr ?_⟩
        exact Nat.lt_of_le_of_lt hrec.1.2.1 hstrict

theorem hiddenGroup_good (b : Board) (g : List (Nat × Nat)) (hb : WF b)
    (hg : ∀ p ∈ g, p.1 < 9 ∧ p.2 < 9) :
    GStep b (hiddenGroup b g).1 ∧
      ((hiddenGroup b g).2 = true → mu (hiddenGroup b g).1 < mu b) := by
  have hdc : ∀ d ∈ hiddenLeftovers b g, d ∈ CHOICES := by
    intro d hd
    exact List.mem_of_mem_filter hd
  have hnd : (hiddenLeftovers b g).Nodup := by
    refine List.Nodup.filter _ ?_
    decide
  have hne : ∀ d ∈ hiddenLeftovers b g, ∀ p ∈ g, (getTile b p.1 p.2).value ≠ d := by
    intro d hd p hp
    have := List.of_mem_filter hd
    have hall := List.all_eq_true.mp this p hp
    simpa using hall
  have h := hiddenAux_good g hg (hiddenLeftovers b g) b false hb hdc hnd hne
  refine ⟨h.1, fun hch => ?_⟩
  rcases h.2 hch with hfalse | hlt
  · exact absurd hfalse (by simp)
  · exact hlt

theorem tacticFold_good (f : Board → List (Nat × Nat) → Board × Bool)
    (hf : ∀ b g, WF b → (∀ p ∈ g, p.1 < 9 ∧ p.2 < 9) →
      GStep b (f b g).1 ∧ ((f b g).2 = true → mu (f b g).1 < mu b)) :
    ∀ (gs : List (List (Nat × Nat))) (b : Board) (ch : Bool), WF b →
      (∀ g ∈ gs, ∀ p ∈ g, p.1 < 9 ∧ p.2 < 9) →
      GStep b (tacticFold f gs b ch).1 ∧
        ((tacticFold f gs b ch).2 = true → ch = true ∨ mu (tacticFold f gs b ch).1 < mu b) := by
  intro gs
  induction gs with
  | nil =>
    intro b ch hb _
    exact ⟨GStep_refl hb, fun h => Or.inl h⟩
  | cons g gs ih =>
    intro b ch hb hgs
    have hg := hgs g (List.mem_cons_self g gs)
    have hgs' : ∀ g' ∈ gs, ∀ p ∈ g', p.1 < 9 ∧ p.2 < 9 :=
      fun g' hg' => hgs g' (List.mem_cons_of_mem g hg')
    have hstep := hf b g hb hg
    have hrec := ih (f b g).1 ((f b g).2 || ch) hstep.1.1 hgs'
    have hunf : tacticFold f (g :: gs) b ch = tacticFold f gs (f b g).1 ((f b g).2 || ch) := rfl
    rw [hunf]
    refine ⟨GStep_trans hstep.1 hrec.1, fun hch => ?_⟩
    rcases hrec.2 hch with hor | hlt
    · rcases Bool.or_eq_true_iff.mp hor with he | hc
      · right
        exact Nat.lt_of_le_of_lt hrec.1.2.1 (hstep.2 he)
      · exact Or.inl hc
    · right
      exact Nat.lt_of_lt_of_le hlt hstep.1.2.1

theorem naked_single_good (b : Board) (hb : WF b) :
    GStep b (naked_single b).1 ∧
      ((naked_single b).2 = true → mu (naked_single b).1 < mu b) := by
  have h := tacticFold_good nakedGroup
    (fun b' g hb' hg => nakedGroup_good b' g hb' hg)
    allGroups b false hb (fun g hg => allGroups_bounds g hg)
  refine ⟨h.1, fun hch => ?_⟩
  rcases h.2 hch with hfalse | hlt
  · exact absurd hfalse (by simp)
  · exact hlt

theorem hidden_single_good (b : Board) (hb : WF b) :
    GStep b (hidden_single b).1 ∧
      ((hidden_single b).2 = true → mu (hidden_single b).1 < mu b) := by
  have h := tacticFold_good hiddenGroup
    (fun b' g hb' hg => hiddenGroup_good b' g hb' hg)
    allGroups b false hb (fun g hg => allGroups_bounds g hg)
  refine ⟨h.1, fun hch => ?_⟩
  rcases h.2 hch with hfalse | hlt
  · exact absurd hfalse (by simp)
  · exact hlt

/-! ### Termination of the propagation loop -/

theorem propagateStep_good (b : Board) (hb : WF b) :
    GStep b (propagateStep b).1 ∧
      ((propagateStep b).2 = true → mu (propagateStep b).1 < mu b) := by
  have h1 := naked_single_good b hb
  have h2 := hidden_single_good (naked_single b).1 h1.1.1
  unfold propagateStep
  by_cases hg1 : (is_solved (naked_single b).1 || !(is_consistent (naked_single b).1)) = true
  · simp only [hg1, if_true]
    exact ⟨h1.1, fun h => absurd h (by simp)⟩
  · simp only [hg1, if_false, Bool.false_eq_true]
    by_cases hg2 : (is_solved (hidden_single (naked_single b).1).1 ||
        !(is_consistent (hidden_single (naked_single b).1).1)) = true
    · simp only [hg2, if_true]
      exact ⟨GStep_trans h1.1 h2.1, fun h => absurd h (by simp)⟩
    · simp only [hg2, if_false, Bool.false_eq_true]
      refine ⟨GStep_trans h1.1 h2.1, fun hch => ?_⟩
      rcases Bool.or_eq_true_iff.mp hch with hc1 | hc2
      · exact Nat.lt_of_le_of_lt h2.1.2.1 (h1.2 hc1)
      · exact Nat.lt_of_lt_of_le (h2.2 hc2) h1.1.2.1

theorem propagateF_fuel_irrelevant :
    ∀ (k : Nat) (b : Board), mu b < k → ∀ (m n : Nat), WF b → mu b < m → mu b < n →
      propagateF m b = propagateF n b := by
  intro k
  induction k with
  | zero =>
    intro b hbk
    omega
  | succ k ih =>
    intro b hbk m n hb hm hn
    cases m with
    | zero => omega
    | succ m' =>
      cases n with
      | zero => omega
      | succ n' =>
        have hstep := propagateStep_good b hb
        show (if (propagateStep b).2 then propagateF m' (propagateStep b).1
            else (propagateStep b).1) =
          (if (propagateStep b).2 then propagateF n' (propagateStep b).1
            else (propagateStep b).1)
        by_cases hch : (propagateStep b).2 = true
        · simp only [hch, if_true]
          have hlt := hstep.2 hch
          exact ih (propagateStep b).1 (by omega) m' n' hstep.1.1 (by omega) (by omega)
        · simp only [hch]
          simp at hch
          simp [hch]

theorem propagateF_GStep : ∀ (n : Nat) (b : Board), WF b → GStep b (propagateF n b) := by
  intro n
  induction n with
  | zero => intro b hb; exact GStep_refl hb
  | succ n ih =>
    intro b hb
    have hstep := propagateStep_good b hb
    show GStep b (if (propagateStep b).2 then propagateF n (propagateStep b).1
      else (propagateStep b).1)
    by_cases hch : (propagateStep b).2 = true
    · simp only [hch, if_true]
      exact GStep_trans hstep.1 (ih (propagateStep b).1 hstep.1.1)
    · simp only [hch]
      simp at hch
      simp [hch]
      exact hstep.1

theorem propagate_GStep (b : Board) (hb : WF b) : GStep b (propagate b) :=
  propagateF_GStep (mu b + 1) b hb

/-! ### Characterisation of group consistency -/

theorem seteq_true_iff (l1 l2 : List Nat) :
    seteq l1 l2 = true ↔ (∀ x ∈ l1, x ∈ l2) ∧ (∀ x ∈ l2, x ∈ l1) := by
  simp [seteq, List.all_eq_true]

theorem consLoop_true_iff :
    ∀ (ts : List Tile) (used cp : List Nat),
      (∀ t ∈ ts, ∀ d ∈ t.candidates, d ∈ CHOICES) →
      (∀ x ∈ cp, x ∈ CHOICES) →
      UNKNOWN ∉ used →
      (consLoop ts used cp = true ↔
        (∀ t ∈ ts, t.candidates ≠ []) ∧
        (∀ v, v ≠ UNKNOWN →
          (ts.map Tile.value).count v + (if v ∈ used then 1 else 0) ≤ 1) ∧
        (∀ d ∈ CHOICES, d ∈ cp ∨ ∃ t ∈ ts, d ∈ t.candidates)) := by
  intro ts
  induction ts with
  | nil =>
    intro used cp _ hcp _
    simp only [consLoop]
    rw [seteq_true_iff]
    constructor
    · intro h
      refine ⟨by simp, fun v _ => ?_, fun d hd => ?_⟩
      · simp only [List.map_nil, List.count_nil]
        split <;> omega
      · exact Or.inl (h.2 d hd)
    · intro h
      refine ⟨hcp, fun d hd => ?_⟩
      rcases h.2.2 d hd with hcpm | hex
      · exact hcpm
      · simp at hex
  | cons t ts ih =>
    intro used cp hts hcp hu0
    have htsc : ∀ x ∈ ts, ∀ d ∈ x.candidates, d ∈ CHOICES :=
      fun x hx => hts x (List.mem_cons_of_mem t hx)
    have hunf : consLoop (t :: ts) used cp =
        (if t.candidates.length = 0 then false
         else if used.contains t.value then false
         else consLoop ts (if t.value ≠ UNKNOWN then t.value :: used else used)
           (cp ++ t.candidates)) := rfl
    by_cases hlen : t.candidates.length = 0
    · have hnil : t.candidates = [] := List.length_eq_zero.mp hlen
      rw [hunf, if_pos hlen]
      constructor
      · intro h; cases h
      · intro h
        exact absurd hnil (h.1 t (List.mem_cons_self t ts))
    · have hnil : t.candidates ≠ [] := fun h => hlen (by rw [h]; rfl)
      rw [hunf, if_neg hlen]
      by_cases hused : used.contains t.value = true
      · have hmem : t.value ∈ used := by simpa using hused
        have htv : t.value ≠ UNKNOWN := fun h => hu0 (h ▸ hmem)
        rw [if_pos hused]
        constructor
        · intro h; cases h
        · intro h
          have := h.2.1 t.value htv
          rw [List.map_cons, List.count_cons_self, if_pos hmem] at this
          omega
      · have hnmem : t.value ∉ used := by simpa using hused
        rw [if_neg hused]
        have hcp' : ∀ x ∈ cp ++ t.candidates, x ∈ CHOICES := by
          intro x hx
          rcases List.mem_append.mp hx with h | h
          · exact hcp x h
          · exact hts t (List.mem_cons_self t ts) x h
        have hcommon : ∀ d ∈ CHOICES,
            (d ∈ cp ++ t.candidates ∨ ∃ x ∈ ts, d ∈ x.candidates) ↔
            (d ∈ cp ∨ ∃ x ∈ t :: ts, d ∈ x.candidates) := by
          intro d _
          constructor
          · intro h1
            rcases h1 with h1 | h1
            · rcases List.mem_append.mp h1 with h2 | h2
              · exact Or.inl h2
              · exact Or.inr ⟨t, List.mem_cons_self t ts, h2⟩
            · obtain ⟨x, hx, hdx⟩ := h1
              exact Or.inr ⟨x, List.mem_cons_of_mem t hx, hdx⟩
          · intro h1
            rcases h1 with h1 | h1
            · exact Or.inl (List.mem_append.mpr (Or.inl h1))
            · obtain ⟨x, hx, hdx⟩ := h1
              rcases List.mem_cons.mp hx with h2 | h2
              · exact Or.inl (List.mem_append.mpr (Or.inr (h2 ▸ hdx)))
              · exact Or.inr ⟨x, h2, hdx⟩
        have hnilcons : ∀ (P : Prop), P = (∀ x ∈ ts, x.candidates ≠ []) →
            (P ↔ ∀ x ∈ t :: ts, x.candidates ≠ []) := by
          intro P hP
          subst hP
          constructor
          · intro h x hx
            rcases List.mem_cons.mp hx with h1 | h1
            · rw [h1]; exact hnil
            · exact h x h1
          · intro h x hx
            exact h x (List.mem_cons_of_mem t hx)
        by_cases htv : t.value = UNKNOWN
        · have hif : (if t.value ≠ UNKNOWN then t.value :: used else used) = used := by
            simp [htv]
          rw [hif, ih _ _ htsc hcp' hu0]
          have hcount : ∀ v, v ≠ UNKNOWN →
              (((t :: ts).map Tile.value).count v = (ts.map Tile.value).count v) := by
            intro v hv
            rw [List.map_cons]
            exact List.count_cons_of_ne (fun h => hv (h.trans htv)) _
          constructor
          · intro h
            refine ⟨((hnilcons _ rfl).mp h.1), fun v hv => ?_, fun d hd => (hcommon d hd).mp (h.2.2 d hd)⟩
            rw [hcount v hv]
            exact h.2.1 v hv
          · intro h
            refine ⟨((hnilcons _ rfl).mpr h.1), fun v hv => ?_, fun d hd => (hcommon d hd).mpr (h.2.2 d hd)⟩
            rw [← hcount v hv]
            exact h.2.1 v hv
        · have hif : (if t.value ≠ UNKNOWN then t.value :: used else used) = t.value :: used :=
            if_pos htv
          have hu0' : UNKNOWN ∉ t.value :: used := by
            intro h
            rcases List.mem_cons.mp h with h1 | h1
            · exact htv h1.symm
            · exact hu0 h1
          rw [hif, ih _ _ htsc hcp' hu0']
          constructor
          · intro h
            refine ⟨((hnilcons _ rfl).mp h.1), fun v hv => ?_, fun d hd => (hcommon d hd).mp (h.2.2 d hd)⟩
            have h2 := h.2.1 v hv
            rw [List.map_cons]
            by_cases hveq : v = t.value
            · subst hveq
              rw [List.count_cons_self, if_neg hnmem]
              rw [if_pos (List.mem_cons_self _ _)] at h2
              omega
            · rw [List.count_cons_of_ne hveq _]
              by_cases hvu : v ∈ used
              · rw [if_pos hvu]
                rw [if_pos (List.mem_cons_of_mem _ hvu)] at h2
                exact h2
              · have hvu' : v ∉ t.value :: used := by
                  intro hx
                  rcases List.mem_cons.mp hx with h3 | h3
                  · exact hveq h3
                  · exact hvu h3
                rw [if_neg hvu]
                rw [if_neg hvu'] at h2
                omega
          · intro h
            refine ⟨((hnilcons _ rfl).mpr h.1), fun v hv => ?_, fun d hd => (hcommon d hd).mpr (h.2.2 d hd)⟩
            have h2 := h.2.1 v hv
            rw [List.map_cons] at h2
            by_cases hveq : v = t.value
            · subst hveq
              rw [List.count_cons_self, if_neg hnmem] at h2
              rw [if_pos (List.mem_cons_self _ _)]
              omega
            · rw [List.count_cons_of_ne hveq _] at h2
              by_cases hvu : v ∈ used
              · rw [if_pos (List.mem_cons_of_mem _ hvu)]
                rw [if_pos hvu] at h2
                exact h2
              · have hvu' : v ∉ t.value :: used := by
                  intro hx
                  rcases List.mem_cons.mp hx with h3 | h3
                  · exact hveq h3
                  · exact hvu h3
                rw [if_neg hvu']
                rw [if_neg hvu] at h2
                omega

theorem is_consistent_group_true_iff (ts : List Tile)
    (hts : ∀ t ∈ ts, ∀ d ∈ t.candidates, d ∈ CHOICES) :
    is_consistent_group ts = true ↔
      (∀ t ∈ ts, t.candidates ≠ []) ∧
      (∀ v, v ≠ UNKNOWN → (ts.map Tile.value).count v ≤ 1) ∧
      (∀ d ∈ CHOICES, ∃ t ∈ ts, d ∈ t.candidates) := by
  rw [is_consistent_group, consLoop_true_iff ts [] [] hts (by simp) (by simp)]
  constructor
  · intro h
    refine ⟨h.1, fun v hv => ?_, fun d hd => ?_⟩
    · have := h.2.1 v hv
      simpa using this
    · rcases h.2.2 d hd with h1 | h1
      · simp at h1
      · exact h1
  · intro h
    refine ⟨h.1, fun v hv => ?_, fun d hd => Or.inr (h.2.2 d hd)⟩
    have := h.2.1 v hv
    simpa using this

/-! ### Inconsistency is preserved by pointwise tile evolution -/

/-- How a single tile evolves under any solver step: candidates only shrink
and assigned tiles are untouched. -/
def TileStep (t t' : Tile) : Prop :=
  t'.candidates ⊆ t.candidates ∧ (t.value ≠ UNKNOWN → t' = t)

theorem forall₂_tileStep_groupTiles {b b' : Board} (hpw : PW b b') :
    ∀ (g : List (Nat × Nat)), (∀ p ∈ g, p.1 < 9 ∧ p.2 < 9) →
      List.Forall₂ TileStep (groupTiles b g) (groupTiles b' g) := by
  intro g
  induction g with
  | nil => intro _; exact List.Forall₂.nil
  | cons p ps ih =>
    intro hg
    obtain ⟨hp1, hp2⟩ := hg p (List.mem_cons_self p ps)
    have h := hpw p.1 hp1 p.2 hp2
    exact List.Forall₂.cons ⟨h.1, h.2⟩ (ih (fun q hq => hg q (List.mem_cons_of_mem p hq)))

theorem tileStep_empty : ∀ {ts ts' : List Tile}, List.Forall₂ TileStep ts ts' →
    (∃ t ∈ ts, t.candidates = []) → ∃ t' ∈ ts', t'.candidates = [] := by
  intro ts ts' h
  induction h with
  | nil => intro h1; simpa using h1
  | cons hstep htail ih =>
    intro h1
    rename_i t t' l l'
    rcases h1 with ⟨x, hx, hxc⟩
    rcases List.mem_cons.mp hx with h2 | h2
    · refine ⟨t', List.mem_cons_self t' l', ?_⟩
      have hsub := hstep.1
      rw [← h2, hxc] at hsub
      exact List.subset_nil.mp hsub
    · obtain ⟨y, hy, hyc⟩ := ih ⟨x, h2, hxc⟩
      exact ⟨y, List.mem_cons_of_mem t' hy, hyc⟩

theorem tileStep_count (v : Nat) (hv : v ≠ UNKNOWN) :
    ∀ {ts ts' : List Tile}, List.Forall₂ TileStep ts ts' →
      (ts.map Tile.value).count v ≤ (ts'.map Tile.value).count v := by
  intro ts ts' h
  induction h with
  | nil => simp
  | cons hstep htail ih =>
    rename_i t t' l l'
    rw [List.map_cons, List.map_cons]
    by_cases hveq : t.value = v
    · have htv : t.value ≠ UNKNOWN := fun h0 => hv (h0 ▸ hveq.symm)
      have ht' : t' = t := hstep.2 htv
      rw [ht', hveq, List.count_cons_self, List.count_cons_self]
      omega
    · rw [List.count_cons_of_ne (fun h0 => hveq h0.symm) _]
      have hle : (l'.map Tile.value).count v ≤ (t'.value :: l'.map Tile.value).count v := by
        rw [List.count_cons]
        omega
      exact Nat.le_trans ih hle

theorem tileStep_cover : ∀ {ts ts' : List Tile}, List.Forall₂ TileStep ts ts' →
    ∀ (d : Nat), (∀ t ∈ ts, d ∉ t.candidates) → ∀ t' ∈ ts', d ∉ t'.candidates := by
  intro ts ts' h
  induction h with
  | nil => intro d _ t' ht'; simp at ht'
  | cons hstep htail ih =>
    rename_i t t' l l'
    intro d hd x hx
    rcases List.mem_cons.mp hx with h2 | h2
    · rw [h2]
      intro hmem
      exact hd t (List.mem_cons_self t l) (hstep.1 hmem)
    · exact ih d (fun y hy => hd y (List.mem_cons_of_mem t hy)) x h2

theorem group_incons_mono {ts ts' : List Tile} (h : List.Forall₂ TileStep ts ts')
    (hts : ∀ t ∈ ts, ∀ d ∈ t.candidates, d ∈ CHOICES)
    (hts' : ∀ t ∈ ts', ∀ d ∈ t.candidates, d ∈ CHOICES) :
    is_consistent_group ts = false → is_consistent_group ts' = false := by
  intro hf
  by_contra hnf
  have ht' : is_consistent_group ts' = true := by
    cases hx : is_consistent_group ts' with
    | false => exact absurd hx hnf
    | true => rfl
  have hchar' := (is_consistent_group_true_iff ts' hts').mp ht'
  have hchar : is_consistent_group ts = true := by
    rw [is_consistent_group_true_iff ts hts]
    refine ⟨fun t htm => ?_, fun v hv => ?_, fun d hd => ?_⟩
    · intro hc
      obtain ⟨t', ht'm, ht'c⟩ := tileStep_empty h ⟨t, htm, hc⟩
      exact absurd ht'c (hchar'.1 t' ht'm)
    · exact Nat.le_trans (tileStep_count v hv h) (hchar'.2.1 v hv)
    · by_contra hnone
      push_neg at hnone
      obtain ⟨t', ht'm, hd't⟩ := hchar'.2.2 d hd
      exact tileStep_cover h d (fun t htm hmem => hnone t htm hmem) t' ht'm hd't
  rw [hchar] at hf
  cases hf

theorem wf_groupTiles {b : Board} (hb : WF b) {g : List (Nat × Nat)}
    (hg : ∀ p ∈ g, p.1 < 9 ∧ p.2 < 9) :
    ∀ t ∈ groupTiles b g, ∀ d ∈ t.candidates, d ∈ CHOICES := by
  intro t ht
  obtain ⟨p, hp, hpt⟩ := List.mem_map.mp ht
  obtain ⟨hp1, hp2⟩ := hg p hp
  rw [← hpt]
  exact (hb.2.2 p.1 hp1 p.2 hp2).2.1

theorem incons_mono {b b' : Board} (hb : WF b) (hb' : WF b') (hpw : PW b b') :
    is_consistent b = false → is_consistent b' = false := by
  intro hf
  by_contra hnf
  have ht' : is_consistent b' = true := by
    cases hx : is_consistent b' with
    | false => exact absurd hx hnf
    | true => rfl
  have hall' := List.all_eq_true.mp ht'
  have hall : is_consistent b = true := by
    refine List.all_eq_true.mpr (fun g hg => ?_)
    have hgb := allGroups_bounds g hg
    have hstep := forall₂_tileStep_groupTiles hpw g hgb
    have hg' := hall' g hg
    by_contra hgf
    have hgf' : is_consistent_group (groupTiles b g) = false := by
      cases hx : is_consistent_group (groupTiles b g) with
      | false => rfl
      | true => exact absurd (by simpa [hx] using hx) hgf
    have := group_incons_mono hstep (wf_groupTiles hb hgb) (wf_groupTiles hb' hgb) hgf'
    rw [this] at hg'
    cases hg'
  rw [hall] at hf
  cases hf

/-! ### Behaviour of `solve` -/

theorem naked_single_incons (b : Board) (hb : WF b) (hf : is_consistent b = false) :
    is_consistent (naked_single b).1 = false :=
  incons_mono hb (naked_single_good b hb).1.1 (naked_single_good b hb).1.2.2 hf

theorem hidden_single_incons (b : Board) (hb : WF b) (hf : is_consistent b = false) :
    is_consistent (hidden_single b).1 = false :=
  incons_mono hb (hidden_single_good b hb).1.1 (hidden_single_good b hb).1.2.2 hf

theorem propagateF_incons (n : Nat) (b : Board) (hb : WF b) (hf : is_consistent b = false) :
    is_consistent (propagateF n b) = false :=
  incons_mono hb (propagateF_GStep n b hb).1 (propagateF_GStep n b hb).2.2 hf

theorem propagate_incons (b : Board) (hb : WF b) (hf : is_consistent b = false) :
    is_consistent (propagate b) = false :=
  propagateF_incons (mu b + 1) b hb hf

theorem solveF_succ (n : Nat) (b : Board) :
    solveF (n + 1) b =
      (if is_solved (propagate b) then (propagate b, true)
       else if !(is_consistent (propagate b)) then (propagate b, false)
       else
         match selectScan (propagate b) with
         | none => (propagate b, false)
         | some p =>
           tryCands (solveF n) p (as_list (propagate b))
             (getTile (propagate b) p.1 p.2).candidates (propagate b)) := rfl

theorem solveF_board_of_incons (n : Nat) (b : Board)
    (hf : is_consistent (propagate b) = false) :
    (solveF (n + 1) b).1 = propagate b := by
  rw [solveF_succ]
  by_cases hs : is_solved (propagate b) = true
  · simp [hs]
  · simp [hs, hf]

theorem solveF_incons (n : Nat) (b : Board) (hb : WF b) (hf : is_consistent b = false) :
    is_consistent (solveF n b).1 = false := by
  cases n with
  | zero => exact hf
  | succ n =>
    rw [solveF_board_of_incons n b (propagate_incons b hb hf)]
    exact propagate_incons b hb hf

theorem tryCands_true_solved (rec : Board → Board × Bool) (p : Nat × Nat) (save : List Nat)
    (hrec : ∀ b b2, rec b = (b2, true) → is_solved b2 = true) :
    ∀ (cs : List Nat) (b b2 : Board), tryCands rec p save cs b = (b2, true) →
      is_solved b2 = true := by
  intro cs
  induction cs with
  | nil =>
    intro b b2 h
    simp only [tryCands] at h
    cases h
  | cons c cs ih =>
    intro b b2 h
    simp only [tryCands] at h
    cases hres : rec (setTile b p.1 p.2 (set_value c)) with
    | mk rb rflag =>
      rw [hres] at h
      cases rflag with
      | true =>
        simp only at h
        cases h
        exact hrec _ _ hres
      | false =>
        simp only at h
        exact ih _ _ h

theorem pair_eq_fst {α β : Type} {x : α} {y : β} {b2 : α} (h : (x, y) = (b2, y)) :
    b2 = x :=
  (congrArg Prod.fst h).symm

theorem solveF_true_solved :
    ∀ (n : Nat) (b b2 : Board), solveF n b = (b2, true) → is_solved b2 = true := by
  intro n
  induction n with
  | zero =>
    intro b b2 h
    have h0 : solveF 0 b = (b, false) := rfl
    rw [h0] at h
    have := congrArg Prod.snd h
    simp at this
  | succ n ih =>
    intro b b2 h
    rw [solveF_succ] at h
    by_cases hs : is_solved (propagate b) = true
    · rw [if_pos hs] at h
      rw [pair_eq_fst h]
      exact hs
    · rw [if_neg hs] at h
      by_cases hc : is_consistent (propagate b) = true
      · rw [if_neg (by simp [hc])] at h
        cases hsel : selectScan (propagate b) with
        | none =>
          rw [hsel] at h
          simp only at h
          have := congrArg Prod.snd h
          simp at this
        | some p =>
          rw [hsel] at h
          exact tryCands_true_solved (solveF n) p (as_list (propagate b)) ih _ _ _ h
      · rw [if_pos (by simp [Bool.not_eq_true] at hc; simp [hc])] at h
        have := congrArg Prod.snd h
        simp at this

/-! ### The minimum-remaining-values selection scan -/

theorem all_false_exists {α : Type} (l : List α) (f : α → Bool) (h : l.all f = false) :
    ∃ x ∈ l, f x = false := by
  by_contra hno
  push_neg at hno
  have hall : l.all f = true := List.all_eq_true.mpr (fun x hx => by
    cases hfx : f x with
    | false => exact absurd hfx (hno x hx)
    | true => rfl)
  rw [hall] at h
  cases h

theorem mem_rowMajor (p : Nat × Nat) : p ∈ rowMajor ↔ p.1 < 9 ∧ p.2 < 9 := by
  constructor
  · intro h
    simp only [rowMajor, List.mem_flatMap, List.mem_map, List.mem_range] at h
    obtain ⟨r, hr, c, hc, hp⟩ := h
    rw [← hp]
    exact ⟨hr, hc⟩
  · intro h
    simp only [rowMajor, List.mem_flatMap, List.mem_map, List.mem_range]
    exact ⟨p.1, h.1, p.2, h.2, rfl⟩

theorem rowMajor_pairwise :
    List.Pairwise (fun a b : Nat × Nat => a.1 * 9 + a.2 < b.1 * 9 + b.2) rowMajor := by
  decide

theorem exists_unknown_of_not_solved (b : Board) (hns : is_solved b = false) :
    ∃ r, r < 9 ∧ ∃ c, c < 9 ∧ (getTile b r c).value = UNKNOWN := by
  obtain ⟨g, hg, hgr⟩ := all_false_exists _ _ hns
  obtain ⟨t, ht, htr⟩ := all_false_exists _ _ hgr
  obtain ⟨p, hp, hpt⟩ := List.mem_map.mp ht
  obtain ⟨hp1, hp2⟩ := allGroups_bounds g hg p hp
  refine ⟨p.1, hp1, p.2, hp2, ?_⟩
  rw [hpt]
  simpa using htr

theorem selectAux_spec (b : Board) :
    ∀ (ps : List (Nat × Nat)) (mc : Nat) (best : Option (Nat × Nat)),
      (selectAux b ps mc best = (mc, best) ∧
        ∀ q ∈ ps, (getTile b q.1 q.2).value = UNKNOWN →
          mc ≤ (getTile b q.1 q.2).candidates.length) ∨
      (∃ l p r, ps = l ++ p :: r ∧
        (selectAux b ps mc best).2 = some p ∧
        (getTile b p.1 p.2).value = UNKNOWN ∧
        (getTile b p.1 p.2).candidates.length = (selectAux b ps mc best).1 ∧
        (selectAux b ps mc best).1 < mc ∧
        (∀ q ∈ l, (getTile b q.1 q.2).value = UNKNOWN →
          (selectAux b ps mc best).1 < (getTile b q.1 q.2).candidates.length) ∧
        (∀ q ∈ r, (getTile b q.1 q.2).value = UNKNOWN →
          (selectAux b ps mc best).1 ≤ (getTile b q.1 q.2).candidates.length)) := by
  intro ps
  induction ps with
  | nil =>
    intro mc best
    left
    exact ⟨rfl, by simp⟩
  | cons q ps ih =>
    intro mc best
    by_cases htake : (getTile b q.1 q.2).value = UNKNOWN ∧
        (getTile b q.1 q.2).candidates.length < mc
    · have hunf : selectAux b (q :: ps) mc best =
          selectAux b ps (getTile b q.1 q.2).candidates.length (some q) := by
        simp [selectAux, htake]
      rcases ih (getTile b q.1 q.2).candidates.length (some q) with hL | hR
      · right
        refine ⟨[], q, ps, by simp, ?_, htake.1, ?_, ?_, by simp, ?_⟩
        · rw [hunf, hL.1]
        · rw [hunf, hL.1]
        · rw [hunf, hL.1]
          exact htake.2
        · intro x hx hxu
          rw [hunf, hL.1]
          exact hL.2 x hx hxu
      · obtain ⟨l, p, r, hps, h2, h3, h4, h5, h6, h7⟩ := hR
        right
        refine ⟨q :: l, p, r, by rw [hps]; rfl, ?_, h3, ?_, ?_, ?_, ?_⟩
        · rw [hunf]; exact h2
        · rw [hunf]; exact h4
        · rw [hunf]
          exact Nat.lt_trans h5 htake.2
        · intro x hx hxu
          rcases List.mem_cons.mp hx with hxq | hxl
          · rw [hunf, hxq]
            exact h5
          · rw [hunf]
            exact h6 x hxl hxu
        · intro x hx hxu
          rw [hunf]
          exact h7 x hx hxu
    · have hunf : selectAux b (q :: ps) mc best = selectAux b ps mc best := by
        simp only [selectAux]
        rw [if_neg htake]
      have hqge : (getTile b q.1 q.2).value = UNKNOWN →
          mc ≤ (getTile b q.1 q.2).candidates.length := by
        intro hqu
        by_contra hlt
        exact htake ⟨hqu, Nat.lt_of_not_le hlt⟩
      rcases ih mc best with hL | hR
      · left
        refine ⟨by rw [hunf]; exact hL.1, fun x hx hxu => ?_⟩
        rcases List.mem_cons.mp hx with hxq | hxl
        · rw [hxq]
          exact hqge (by rw [← hxq]; exact hxu)
        · exact hL.2 x hxl hxu
      · obtain ⟨l, p, r, hps, h2, h3, h4, h5, h6, h7⟩ := hR
        right
        refine ⟨q :: l, p, r, by rw [hps]; rfl, ?_, h3, ?_, ?_, ?_, ?_⟩
        · rw [hunf]; exact h2
        · rw [hunf]; exact h4
        · rw [hunf]; exact h5
        · intro x hx hxu
          rcases List.mem_cons.mp hx with hxq | hxl
          · rw [hunf, hxq]
            have := hqge (by rw [← hxq]; exact hxu)
            exact Nat.lt_of_lt_of_le h5 this
          · rw [hunf]
            exact h6 x hxl hxu
        · intro x hx hxu
          rw [hunf]
          exact h7 x hx hxu

theorem wf_cand_le_nine (b : Board) (hb : WF b) (r c : Nat) (hr : r < 9) (hc : c < 9) :
    (getTile b r c).candidates.length ≤ 9 := by
  have hwt := hb.2.2 r hr c hc
  have hsub : (getTile b r c).candidates ⊆ CHOICES := fun d hd => hwt.2.1 d hd
  have := (List.subperm_of_subset hwt.1 hsub).length_le
  simpa [CHOICES] using this

theorem selectScan_spec (b : Board) (hb : WF b) (hns : is_solved b = false) :
    ∃ p, selectScan b = some p ∧ p.1 < 9 ∧ p.2 < 9 ∧
      (getTile b p.1 p.2).value = UNKNOWN ∧
      (∀ r < 9, ∀ c < 9, (getTile b r c).value = UNKNOWN →
        (getTile b p.1 p.2).candidates.length ≤ (getTile b r c).candidates.length) ∧
      (∀ r < 9, ∀ c < 9, r * 9 + c < p.1 * 9 + p.2 → (getTile b r c).value = UNKNOWN →
        (getTile b p.1 p.2).candidates.length < (getTile b r c).candidates.length) := by
  obtain ⟨r0, hr0, c0, hc0, hu0⟩ := exists_unknown_of_not_solved b hns
  rcases selectAux_spec b rowMajor 10 none with hL | hR
  · exfalso
    have hq : (r0, c0) ∈ rowMajor := (mem_rowMajor (r0, c0)).mpr ⟨hr0, hc0⟩
    have h10 : 10 ≤ (getTile b r0 c0).candidates.length := hL.2 (r0, c0) hq hu0
    have h9 := wf_cand_le_nine b hb r0 c0 hr0 hc0
    omega
  · obtain ⟨l, p, rr, hps, h2, h3, h4, h5, h6, h7⟩ := hR
    have hpmem : p ∈ rowMajor := by
      rw [hps]
      exact List.mem_append.mpr (Or.inr (List.mem_cons_self p rr))
    obtain ⟨hp1, hp2⟩ := (mem_rowMajor p).mp hpmem
    have hpair := rowMajor_pairwise
    rw [hps] at hpair
    obtain ⟨hpl, hpcons, hcross⟩ := List.pairwise_append.mp hpair
    have hphead := List.pairwise_cons.mp hpcons
    refine ⟨p, h2, hp1, hp2, h3, ?_, ?_⟩
    · intro r hr c hc hu
      have hq : (r, c) ∈ rowMajor := (mem_rowMajor (r, c)).mpr ⟨hr, hc⟩
      rw [hps] at hq
      rw [h4]
      rcases List.mem_append.mp hq with hql | hqc
      · exact Nat.le_of_lt (h6 (r, c) hql hu)
      · rcases List.mem_cons.mp hqc with hqp | hqr
        · have hre : p.1 = r := by rw [← hqp]
          have hce : p.2 = c := by rw [← hqp]
          rw [← hre, ← hce]
          exact Nat.le_of_eq h4.symm
        · exact h7 (r, c) hqr hu
    · intro r hr c hc hidx hu
      have hq : (r, c) ∈ rowMajor := (mem_rowMajor (r, c)).mpr ⟨hr, hc⟩
      rw [hps] at hq
      rw [h4]
      rcases List.mem_append.mp hq with hql | hqc
      · exact h6 (r, c) hql hu
      · exfalso
        rcases List.mem_cons.mp hqc with hqp | hqr
        · have hre : p.1 = r := by rw [← hqp]
          have hce : p.2 = c := by rw [← hqp]
          rw [hre, hce] at hidx
          omega
        · have := hphead.1 (r, c) hqr
          simp only at this hidx
          omega

/-! ### Snapshot and restore -/

theorem restoredTile_value (v : Nat) : (restoredTile v).value = v := by
  unfold restoredTile
  split
  · rename_i hv
    rw [hv]
  · rfl

theorem getTile_set_tiles (b : Board) (snap : List Nat) (r c : Nat)
    (hr : r < 9) (hc : c < 9) :
    getTile (set_tiles b snap) r c = restoredTile (snap.getD (r * 9 + c) 0) := by
  interval_cases r <;> interval_cases c <;> rfl

theorem as_list_getD (b : Board) (r c : Nat) (hr : r < 9) (hc : c < 9) :
    (as_list b).getD (r * 9 + c) 0 = (getTile b r c).value := by
  interval_cases r <;> interval_cases c <;> rfl

theorem as_list_congr {b1 b2 : Board}
    (h : ∀ r < 9, ∀ c < 9, (getTile b1 r c).value = (getTile b2 r c).value) :
    as_list b1 = as_list b2 := by
  unfold as_list
  refine List.flatMap_congr ?_
  intro r hr
  refine List.map_congr_left ?_
  intro c hc
  exact h r (List.mem_range.mp hr) c (List.mem_range.mp hc)

theorem as_list_set_tiles (b bprev : Board) :
    as_list (set_tiles b (as_list bprev)) = as_list bprev := by
  refine as_list_congr ?_
  intro r hr c hc
  rw [getTile_set_tiles b (as_list bprev) r c hr hc, restoredTile_value,
    as_list_getD bprev r c hr hc]

theorem set_tiles_state_independent (bfail bother : Board) (snap : List Nat) :
    set_tiles bfail snap = set_tiles bother snap := rfl

theorem tryCands_restore (rec : Board → Board × Bool) (p : Nat × Nat) (save : List Nat)
    (c : Nat) (cs : List Nat) (b b2 : Board)
    (hfail : rec (setTile b p.1 p.2 (set_value c)) = (b2, false)) :
    tryCands rec p save (c :: cs) b = tryCands rec p save cs (set_tiles b2 save) := by
  simp only [tryCands, hfail]

/-! ### The duplicates loop never reports -/

theorem dupAux_empty_used : ∀ (ts : List Tile) (reports : List Nat),
    dupAux ts [] reports = reports := by
  intro ts
  induction ts with
  | nil => intro reports; rfl
  | cons t ts ih =>
    intro reports
    by_cases hv : t.value = UNKNOWN
    · simp [dupAux, hv, ih]
    · simp [dupAux, hv, ih]

theorem duplicates_nil (ts : List Tile) : duplicates ts = [] :=
  dupAux_empty_used ts []

/-! ### Hidden single on a singleton leftover -/

theorem hiddenLeftovers_mem (b : Board) (g : List (Nat × Nat)) (d : Nat) :
    d ∈ hiddenLeftovers b g ↔
      d ∈ CHOICES ∧ ∀ p ∈ g, (getTile b p.1 p.2).value ≠ d := by
  simp [hiddenLeftovers, List.mem_filter, List.all_eq_true]

theorem hiddenGroup_assigns (b : Board) (g : List (Nat × Nat)) (d : Nat) (p : Nat × Nat)
    (hleft : hiddenLeftovers b g = [d])
    (hbucket : g.filter (fun q => could_be (getTile b q.1 q.2) d) = [p]) :
    hiddenGroup b g = (setTile b p.1 p.2 (set_value d), true) := by
  unfold hiddenGroup
  rw [hleft]
  simp only [hiddenAux, hbucket]

/-! ### Concrete boards used by the claims -/

set_option maxRecDepth 1000000

/-- A complete valid grid, used as the base of several concrete boards. -/
def gFull : List (List Nat) :=
  [[1,3,4,5,2,6,7,8,9],
   [2,6,7,8,1,9,3,4,5],
   [5,8,9,3,4,7,1,2,6],
   [3,5,1,6,7,2,8,9,4],
   [8,4,2,1,9,3,5,6,7],
   [7,9,6,4,5,8,2,1,3],
   [4,2,3,7,6,1,9,5,8],
   [6,1,8,9,3,5,4,7,2],
   [9,7,5,2,8,4,6,3,1]]

/-- `gFull` with the rectangle (0,0) (0,4) (1,0) (1,4) of values 1/2 blanked:
a puzzle on which propagation stalls with four UNKNOWN tiles of two
candidates each, yet a single guess resolves it. -/
def gStar : List (List Nat) :=
  [[0,3,4,5,0,6,7,8,9],
   [0,6,7,8,0,9,3,4,5],
   [5,8,9,3,4,7,1,2,6],
   [3,5,1,6,7,2,8,9,4],
   [8,4,2,1,9,3,5,6,7],
   [7,9,6,4,5,8,2,1,3],
   [4,2,3,7,6,1,9,5,8],
   [6,1,8,9,3,5,4,7,2],
   [9,7,5,2,8,4,6,3,1]]

/-- The stalling puzzle of scenario D as a board. -/
def pStar : Board := boardOfVals gStar

/-- A fully assigned board holding 1 everywhere: complete but inconsistent. -/
def bAll1 : Board := boardOfVals (List.replicate 9 (List.replicate 9 1))

/-- A fully assigned board holding 2 everywhere: complete but inconsistent. -/
def bAll2 : Board := boardOfVals (List.replicate 9 (List.replicate 9 2))

/-- A board with two 5s in row 0 and everything else UNKNOWN (scenario C). -/
def bIncons : Board :=
  boardOfVals ([[5,0,0,0,0,0,0,0,5]] ++ List.replicate 8 (List.replicate 9 0))

/-- `gFull` with only the corner cell blanked: solved by propagation alone. -/
def bNear : Board :=
  boardOfVals
    [[0,3,4,5,2,6,7,8,9],
     [2,6,7,8,1,9,3,4,5],
     [5,8,9,3,4,7,1,2,6],
     [3,5,1,6,7,2,8,9,4],
     [8,4,2,1,9,3,5,6,7],
     [7,9,6,4,5,8,2,1,3],
     [4,2,3,7,6,1,9,5,8],
     [6,1,8,9,3,5,4,7,2],
     [9,7,5,2,8,4,6,3,1]]

/-- The empty board: 81 UNKNOWN tiles with full candidate sets. -/
def bAllU : Board := boardOfVals (List.replicate 9 (List.replicate 9 0))

/-- Scenario B: row 0 is 1 2 3 4 5 _ 7 8 9, all other cells UNKNOWN. -/
def bScenB : Board :=
  boardOfVals ([[1,2,3,4,5,0,7,8,9]] ++ List.replicate 8 (List.replicate 9 0))

/-! ### The claims -/

/-- Claim C3: `Group.is_consistent()` returns false if and only if some member
tile has an empty candidate set, or two member tiles share an assigned
(non-UNKNOWN) value, or the union of all member tiles' candidate sets fails
to cover every digit 1-9; otherwise it returns true.  (Stated for groups of
well-formed tiles, whose candidates are among the nine digits.) -/
theorem claim_C3 (ts : List Tile) (hts : ∀ t ∈ ts, ∀ d ∈ t.candidates, d ∈ CHOICES) :
    is_consistent_group ts = false ↔
      (∃ t ∈ ts, t.candidates = []) ∨
      (∃ v, v ≠ UNKNOWN ∧ 2 ≤ (ts.map Tile.value).count v) ∨
      ¬(∀ d ∈ CHOICES, ∃ t ∈ ts, d ∈ t.candidates) := by
  have hchar := is_consistent_group_true_iff ts hts
  constructor
  · intro hf
    by_contra hno
    push_neg at hno
    have ht : is_consistent_group ts = true := by
      refine hchar.mpr ⟨hno.1, fun v hv => ?_, hno.2.2⟩
      have := hno.2.1 v hv
      omega
    rw [ht] at hf
    cases hf
  · intro hd
    cases hx : is_consistent_group ts with
    | false => rfl
    | true =>
      exfalso
      have h := hchar.mp hx
      rcases hd with ⟨t, ht, hc⟩ | ⟨v, hv, hcnt⟩ | hcov
      · exact absurd hc (h.1 t ht)
      · have := h.2.1 v hv
        omega
      · exact hcov h.2.2

/-- Witness for C3: a concrete consistent group of nine assigned tiles. -/
def tsRow : List Tile :=
  (CHOICES).map (fun v => ⟨v, [v]⟩)

theorem claim_C3_witness :
    (∀ t ∈ tsRow, ∀ d ∈ t.candidates, d ∈ CHOICES) ∧
      (is_consistent_group tsRow = false ↔
        (∃ t ∈ tsRow, t.candidates = []) ∨
        (∃ v, v ≠ UNKNOWN ∧ 2 ≤ (tsRow.map Tile.value).count v) ∨
        ¬(∀ d ∈ CHOICES, ∃ t ∈ tsRow, d ∈ t.candidates)) :=
  ⟨by decide, claim_C3 tsRow (by decide)⟩

/-- Claim C4 (the code contradicts it): `Group.duplicates()` returns the empty
report list on every group, because its loop never adds any value to the
`used` set it checks against; in particular two tiles sharing an assigned
value produce no report. -/
theorem claim_C4 : ∀ ts : List Tile, duplicates ts = [] :=
  duplicates_nil

/-- Claim C5: `hidden_single_constrain` computes the leftover digits (those
assigned nowhere in the group), and when a leftover digit has exactly one
member tile that could hold it, assigns that digit there via `set_value` and
returns true. -/
theorem claim_C5 :
    (∀ (b : Board) (g : List (Nat × Nat)) (d : Nat),
      d ∈ hiddenLeftovers b g ↔
        d ∈ CHOICES ∧ ∀ p ∈ g, (getTile b p.1 p.2).value ≠ d) ∧
    (∀ (b : Board) (g : List (Nat × Nat)) (d : Nat) (p : Nat × Nat),
      hiddenLeftovers b g = [d] →
      g.filter (fun q => could_be (getTile b q.1 q.2) d) = [p] →
      hiddenGroup b g = (setTile b p.1 p.2 (set_value d), true)) :=
  ⟨hiddenLeftovers_mem, hiddenGroup_assigns⟩

/-- Witness for C5, scenario B: in the row 1 2 3 4 5 _ 7 8 9 the digit 6 is
the only leftover, only the blank cell can hold it, and the tactic assigns 6
there and reports a change. -/
theorem claim_C5_witness :
    hiddenLeftovers bScenB (rowCoords 0) = [6] ∧
      (rowCoords 0).filter (fun q => could_be (getTile bScenB q.1 q.2) 6) = [(0, 5)] ∧
      hiddenGroup bScenB (rowCoords 0) = (setTile bScenB 0 5 (set_value 6), true) :=
  ⟨by decide, by decide,
    claim_C5.2 bScenB (rowCoords 0) 6 (0, 5) (by decide) (by decide)⟩

/-- Claim C6: `propagate` terminates.  Its loop is fuel-indexed here; on any
well-formed board every fuel at least `mu b + 1` (one more than the total
candidate count plus UNKNOWN count, which bounds the strictly decreasing
progress of changed iterations) yields the same result, so the loop reaches
its own exit and `propagate` computes the fixed point. -/
theorem claim_C6 (b : Board) (hb : WF b) :
    ∀ n, mu b + 1 ≤ n → propagateF n b = propagate b :=
  fun n hn =>
    propagateF_fuel_irrelevant (mu b + 1) b (Nat.lt_succ_self _) n (mu b + 1) hb
      (by omega) (Nat.lt_succ_self _)

/-- Witness for C6: on the all-UNKNOWN board (measure 810), fuel 812 computes
the same propagation result as the chosen fuel. -/
theorem claim_C6_witness : propagateF 812 bAllU = propagate bAllU :=
  claim_C6 bAllU (by decide) 812 (by decide)

/-- Claim C7: when a well-formed board is not solved, the selection scan of
`solve` picks an UNKNOWN tile with the fewest remaining candidates, and every
UNKNOWN tile strictly earlier in row-major order has strictly more
candidates (first tile at the minimum wins). -/
theorem claim_C7 (b : Board) (hb : WF b) (hns : is_solved b = false) :
    ∃ p, selectScan b = some p ∧ p.1 < 9 ∧ p.2 < 9 ∧
      (getTile b p.1 p.2).value = UNKNOWN ∧
      (∀ r < 9, ∀ c < 9, (getTile b r c).value = UNKNOWN →
        (getTile b p.1 p.2).candidates.length ≤ (getTile b r c).candidates.length) ∧
      (∀ r < 9, ∀ c < 9, r * 9 + c < p.1 * 9 + p.2 → (getTile b r c).value = UNKNOWN →
        (getTile b p.1 p.2).candidates.length < (getTile b r c).candidates.length) :=
  selectScan_spec b hb hns

/-- Witness for C7 on the scenario-B board. -/
theorem claim_C7_witness :
    ∃ p, selectScan bScenB = some p ∧ p.1 < 9 ∧ p.2 < 9 ∧
      (getTile bScenB p.1 p.2).value = UNKNOWN ∧
      (∀ r < 9, ∀ c < 9, (getTile bScenB r c).value = UNKNOWN →
        (getTile bScenB p.1 p.2).candidates.length ≤
          (getTile bScenB r c).candidates.length) ∧
      (∀ r < 9, ∀ c < 9, r * 9 + c < p.1 * 9 + p.2 →
        (getTile bScenB r c).value = UNKNOWN →
        (getTile bScenB p.1 p.2).candidates.length <
          (getTile bScenB r c).candidates.length) :=
  claim_C7 bScenB (by decide) (by decide)

/-- Claim C10: whenever `solve` would reach its guessing phase (the board is
consistent but not solved), some tile is UNKNOWN and the selection scan finds
one, so `best_tile` is never `None`. -/
theorem claim_C10 (b : Board) (hb : WF b) (hcons : is_consistent b = true)
    (hns : is_solved b = false) :
    ∃ p, selectScan b = some p ∧ (getTile b p.1 p.2).value = UNKNOWN := by
  obtain ⟨p, h1, _, _, h4, _, _⟩ := selectScan_spec b hb hns
  exact ⟨p, h1, h4⟩

/-- Witness for C10 on the scenario-B board, which is consistent, unsolved and
well-formed. -/
theorem claim_C10_witness :
    ∃ p, selectScan bScenB = some p ∧ (getTile bScenB p.1 p.2).value = UNKNOWN :=
  claim_C10 bScenB (by decide) (by decide) (by decide)

/-- Claim C9: once a well-formed board is inconsistent, it stays inconsistent
under `naked_single`, `hidden_single`, `propagate` and `solve` (only the
snapshot restore `set_tiles`, an explicit reset of board state, can revert
it). -/
theorem claim_C9 (b : Board) (n : Nat) (hb : WF b) (hf : is_consistent b = false) :
    is_consistent (naked_single b).1 = false ∧
      is_consistent (hidden_single b).1 = false ∧
      is_consistent (propagate b) = false ∧
      is_consistent (solveF n b).1 = false :=
  ⟨naked_single_incons b hb hf, hidden_single_incons b hb hf,
    propagate_incons b hb hf, solveF_incons n b hb hf⟩

/-- Witness for C9 on the two-fives board of scenario C. -/
theorem claim_C9_witness :
    is_consistent (naked_single bIncons).1 = false ∧
      is_consistent (hidden_single bIncons).1 = false ∧
      is_consistent (propagate bIncons) = false ∧
      is_consistent (solveF 3 bIncons).1 = false :=
  claim_C9 bIncons 3 (by decide) (by decide)

/-- Counterexample to C2 as stated: a fully assigned board with a 2 in every
cell is not consistent after propagation, yet `solve` returns true (the
solved-check precedes the consistency check), so "not consistent after
propagation implies solve returns false" fails. -/
theorem claim_C2_counterexample :
    is_consistent (propagate bAll2) = false ∧ (solve bAll2).2 = true := by
  constructor
  · decide
  · decide

/-- Claim C2 (amended): for every board that after propagation is neither
solved nor consistent, `solve` returns false with the propagated board
untouched by any guess; the false return is the sole failure channel. -/
theorem claim_C2 (n : Nat) (b : Board)
    (hns : is_solved (propagate b) = false)
    (hf : is_consistent (propagate b) = false) :
    solveF (n + 1) b = (propagate b, false) := by
  rw [solveF_succ, if_neg (by simp [hns]), if_pos (by simp [hf])]

/-- Witness for C2 on the two-fives board of scenario C. -/
theorem claim_C2_witness :
    is_solved (propagate bIncons) = false ∧
      is_consistent (propagate bIncons) = false ∧
      solveF 1 bIncons = (propagate bIncons, false) :=
  ⟨by decide, by decide, claim_C2 0 bIncons (by decide) (by decide)⟩

/-- Claim C8: the snapshot restore in the guess loop.  Restoring from a
snapshot depends only on the snapshot, never on the failed branch's board;
restoring the snapshot taken before guessing reproduces exactly that
snapshot; and after a failed recursive call on one candidate the loop
continues on the restored board. -/
theorem claim_C8 :
    (∀ (bfail bother : Board) (snap : List Nat),
      set_tiles bfail snap = set_tiles bother snap) ∧
    (∀ (b bprev : Board), as_list (set_tiles b (as_list bprev)) = as_list bprev) ∧
    (∀ (rec : Board → Board × Bool) (p : Nat × Nat) (save : List Nat)
       (c : Nat) (cs : List Nat) (b b2 : Board),
      rec (setTile b p.1 p.2 (set_value c)) = (b2, false) →
      tryCands rec p save (c :: cs) b = tryCands rec p save cs (set_tiles b2 save)) :=
  ⟨set_tiles_state_independent, as_list_set_tiles,
    fun rec p save c cs b b2 h => tryCands_restore rec p save c cs b b2 h⟩

/-- Witness for C8: guessing a third 5 into the two-fives row fails, and the
loop continues from the restored snapshot. -/
theorem claim_C8_witness :
    tryCands (solveF 1) (0, 8) (as_list bIncons) (5 :: []) bIncons =
      tryCands (solveF 1) (0, 8) (as_list bIncons) []
        (set_tiles (solveF 1 (setTile bIncons 0 8 (set_value 5))).1 (as_list bIncons)) :=
  claim_C8.2.2 (solveF 1) (0, 8) (as_list bIncons) 5 [] bIncons
    (solveF 1 (setTile bIncons 0 8 (set_value 5))).1 (by decide)

/-- Counterexample to C1 as stated: on the all-ones board `solve` returns true
(the board is complete, hence solved), but the returned board is not
consistent, so "solve returns true implies is_consistent()" fails. -/
theorem claim_C1_counterexample :
    (solve bAll1).2 = true ∧ is_consistent (solve bAll1).1 = false := by
  constructor
  · decide
  · decide

/-- Claim C1 (amended): whenever `solve` returns true the board satisfies
`is_solved()` (consistency is not rechecked after the solved test); and for
the concrete scenario-D puzzle `pStar`, which stalls after propagation with
four UNKNOWN tiles of two candidates each while consistent, `solve` returns
true and the resulting board is both solved and consistent. -/
theorem claim_C1 :
    (∀ (n : Nat) (b b2 : Board), solveF n b = (b2, true) → is_solved b2 = true) ∧
    (is_solved (propagate pStar) = false ∧
      is_consistent (propagate pStar) = true ∧
      (propagateStep (propagate pStar)).2 = false ∧
      (∀ p ∈ [((0 : Nat), (0 : Nat)), (0, 4), (1, 0), (1, 4)],
        (getTile (propagate pStar) p.1 p.2).value = UNKNOWN ∧
          2 ≤ (getTile (propagate pStar) p.1 p.2).candidates.length) ∧
      (solve pStar).2 = true ∧
      is_solved (solve pStar).1 = true ∧
      is_consistent (solve pStar).1 = true) := by
  refine ⟨solveF_true_solved, ?_, ?_, ?_, ?_, ?_, ?_, ?_⟩
  · decide
  · decide
  · decide
  · decide
  · decide
  · decide
  · decide

/-- Witness for C1: on the one-blank board propagation alone solves the
puzzle, `solve` reports true, and the general part of C1 yields a solved
board. -/
theorem claim_C1_witness : is_solved (solveF 1 bNear).1 = true :=
  claim_C1.1 1 bNear (solveF 1 bNear).1 (by decide)
